import Mathlib

/-!
Verification of the polling-and-deduplication engine of the rsssubsbot
repository (main.go and its earlier revision).

Modelling conventions:
* Go `map[K]V` values become association lists `List (K × V)`; lookup takes
  the first matching key (`afind`), assignment replaces it (`aset`), and
  mutation through an index updates it in place (`amod`).  Claims that need
  the real-map invariant carry a `Nodup` hypothesis on the key column.
* Go `string` comparison is byte-lexicographic; on the valid UTF-8 data the
  program handles this coincides with code-point lexicographic order, which
  is the order of Lean `String`s.  The executable test `listLtb` mirrors it.
* `time.Time` values are modelled as UTC wall-clock stamps at second
  resolution, which is exactly the information `time.RFC3339` renders; a
  nil `*time.Time` is `none`, and the nil dereference in `NewArticleKey`
  is modelled by an `Option` result (`none` = fault).
* The network fetch performed by `gofeed.NewParser().ParseURL` is an
  external collaborator; its outcome is passed in as an oracle value
  (`none` = fetch/parse error, `some title` = parsed feed title).
-/

/-- Strictly-less test on character lists: the byte-lexicographic `<`
that Go uses to compare `string` values, made executable. -/
def listLtb : List Char → List Char → Bool
  | [], [] => false
  | [], _ :: _ => true
  | _ :: _, [] => false
  | a :: as, b :: bs => if a < b then true else if b < a then false else listLtb as bs

/-- Go `string` strictly-less, used by `update` for `a > ts` and by
`sort.Slice` on queued article keys. -/
def strLtb (a b : String) : Bool := listLtb a.data b.data

/-- First-match lookup in an association list: the model of Go map
indexing `m[k]`. -/
def afind {α β : Type} [DecidableEq α] (k : α) : List (α × β) → Option β
  | [] => none
  | (k', v) :: t => if k = k' then some v else afind k t

/-- Replace-or-append at a key: the model of Go map assignment `m[k] = v`. -/
def aset {α β : Type} [DecidableEq α] (k : α) (v : β) : List (α × β) → List (α × β)
  | [] => [(k, v)]
  | (k', v') :: t => if k = k' then (k', v) :: t else (k', v') :: aset k v t

/-- Update the value stored at a key in place: the model of mutating a Go
map entry through a pointer, as in `f[url].Add(cid)`. -/
def amod {α β : Type} [DecidableEq α] (k : α) (g : β → β) : List (α × β) → List (α × β)
  | [] => []
  | (k', v) :: t => if k = k' then (k', g v) :: t else (k', v) :: amod k g t

/-- A UTC wall-clock timestamp at second resolution: the part of a Go
`time.Time` that `Format(time.RFC3339)` renders. -/
structure DateTime where
  year : Nat
  month : Nat
  day : Nat
  hour : Nat
  minute : Nat
  second : Nat
deriving DecidableEq

/-- Field bounds under which each field fits the fixed width that
`time.RFC3339` prints it with (calendar-legal stamps all satisfy this). -/
def DateTime.Valid (t : DateTime) : Prop :=
  t.year < 10000 ∧ t.month < 100 ∧ t.day < 100 ∧ t.hour < 100 ∧ t.minute < 100 ∧
    t.second < 100

instance (t : DateTime) : Decidable t.Valid := by
  unfold DateTime.Valid; infer_instance

/-- Chronological order of two UTC wall-clock stamps: lexicographic on the
fields from coarsest to finest. -/
def chronoLt (t₁ t₂ : DateTime) : Prop :=
  t₁.year < t₂.year ∨ (t₁.year = t₂.year ∧ (t₁.month < t₂.month ∨ (t₁.month = t₂.month ∧
    (t₁.day < t₂.day ∨ (t₁.day = t₂.day ∧ (t₁.hour < t₂.hour ∨ (t₁.hour = t₂.hour ∧
    (t₁.minute < t₂.minute ∨ (t₁.minute = t₂.minute ∧ t₁.second < t₂.second)))))))))

instance (t₁ t₂ : DateTime) : Decidable (chronoLt t₁ t₂) := by
  unfold chronoLt; infer_instance

/-- The character `'0' + n` for a decimal digit `n`. -/
def digitCh (n : Nat) : Char := Char.ofNat (48 + n)

/-- Two-digit zero-padded decimal rendering, as Go layout `01`/`02`/... -/
def pad2 (n : Nat) : List Char := [digitCh (n / 10), digitCh (n % 10)]

/-- Four-digit zero-padded decimal rendering, as Go layout `2006`. -/
def pad4 (n : Nat) : List Char := pad2 (n / 100) ++ pad2 (n % 100)

/-- The character list `Format(time.RFC3339)` produces for a UTC stamp,
followed by an arbitrary tail (kept right-nested for the order proofs). -/
def fmtList (t : DateTime) (tail : List Char) : List Char :=
  pad4 t.year ++ '-' :: (pad2 t.month ++ '-' :: (pad2 t.day ++ 'T' :: (pad2 t.hour ++
    ':' :: (pad2 t.minute ++ ':' :: (pad2 t.second ++ 'Z' :: tail)))))

/-- `t.Format(time.RFC3339)` for a UTC `time.Time`. -/
def formatRFC3339 (t : DateTime) : String := String.mk (fmtList t [])

/-- An `ArticleKey` is a Go string. -/
abbrev ArticleKey := String

/-- The effective timestamp of `NewArticleKey`: the reassignment
`if up != nil { ts = up }` applied to the published/updated pair. -/
def effTime (ts up : Option DateTime) : Option DateTime := if up.isSome then up else ts

/-- `NewArticleKey(title, ts, up)` from the source: pick the effective
timestamp, then return `ts.Format(time.RFC3339) + "-" + title`.  A `none`
result models the nil-pointer dereference the source performs when both
timestamps are absent. -/
def NewArticleKey (title : String) (ts up : Option DateTime) : Option ArticleKey :=
  (effTime ts up).map (fun t => formatRFC3339 t ++ "-" ++ title)

/-- The key built from a present effective timestamp; `NewArticleKey` is
`effTime` followed by this. -/
def keyOf (t : DateTime) (title : String) : ArticleKey := formatRFC3339 t ++ "-" ++ title

/-- `Feed`: the set of subscribed chats plus the cached feed title. -/
structure Feed where
  chats : List Int
  title : String
deriving DecidableEq

/-- `NewFeed(title)` from the source. -/
def NewFeed (title : String) : Feed := { chats := [], title := title }

/-- `Feed.Add`: Go set insertion `f.Chats[cid] = struct{}{}`. -/
def Feed.addChat (f : Feed) (cid : Int) : Feed :=
  if cid ∈ f.chats then f else { f with chats := cid :: f.chats }

/-- `Feed.Rm`: Go set deletion `delete(f.Chats, cid)`. -/
def Feed.rmChat (f : Feed) (cid : Int) : Feed :=
  { f with chats := f.chats.filter (fun c => c ≠ cid) }

/-- `Feeds`: the mapping of urls to feeds. -/
abbrev Feeds := List (String × Feed)

/-- `Feeds.Add` from the source, with the fetch outcome as an oracle:
if the url is unknown, `Feeds.New` runs (on fetch error it returns before
touching the map); on success `f[url] = NewFeed(title)` and then
`f[url].Add(cid)`.  The boolean is `true` for a nil error. -/
def Feeds.add (fetch : Option String) (f : Feeds) (url : String) (cid : Int) :
    Feeds × Bool :=
  match afind url f with
  | some _ => (amod url (fun fd => fd.addChat cid) f, true)
  | none =>
    match fetch with
    | none => (f, false)
    | some title => (amod url (fun fd => fd.addChat cid) (aset url (NewFeed title) f), true)

/-- ASCII lowercasing of a string, the model of `strings.ToLower`. -/
def lowerStr (s : String) : String := String.mk (s.data.map Char.toLower)

/-- Executable test that `needle` starts the second list. -/
def isPrefixB : List Char → List Char → Bool
  | [], _ => true
  | _ :: _, [] => false
  | a :: as, b :: bs => a == b && isPrefixB as bs

/-- Executable contiguous-substring test (`needle` occurs inside `hay`):
the model of `strings.Contains(hay, needle)`. -/
def containsB (needle : List Char) : List Char → Bool
  | [] => isPrefixB needle []
  | c :: t => isPrefixB needle (c :: t) || containsB needle t

/-- `strings.Contains(hay, sub)`. -/
def goContains (hay sub : String) : Bool := containsB sub.data hay.data

/-- The lookup loop in `Feeds.Rm`: first entry, in iteration order, whose
lowercased title contains the (already lowercased) query. -/
def findTitleMatch (q : String) : Feeds → Option String
  | [] => none
  | (u, fd) :: t => if goContains (lowerStr fd.title) q then some u else findTitleMatch q t

/-- `Feeds.Rm(url, title, cid)` from the source: a non-empty url that is an
exact key wins; otherwise the first case-insensitive title substring match;
otherwise the "No matching subscription found" error (boolean `false`). -/
def Feeds.rm (f : Feeds) (url q : String) (cid : Int) : Feeds × Bool :=
  if url ≠ "" ∧ (afind url f).isSome then
    (amod url (fun fd => fd.rmChat cid) f, true)
  else
    match findTitleMatch (lowerStr q) f with
    | some u => (amod u (fun fd => fd.rmChat cid) f, true)
    | none => (f, false)

/-- A channel's seen-set, a Go `map[ArticleKey]struct{}` as a list. -/
abbrev Seen := List ArticleKey

/-- `Seens`: the mapping of chat ids to seen-sets. -/
abbrev Seens := List (Int × Seen)

/-- `Seens.MarkSeen(cid, a)` from the source: create the channel's set when
absent, test membership, insert when absent, return the old membership. -/
def Seens.markSeen (s : Seens) (cid : Int) (a : ArticleKey) : Seens × Bool :=
  let cur := (afind cid s).getD []
  if a ∈ cur then (s, true) else (aset cid (a :: cur) s, false)

/-- Membership of a key in a channel's seen-set (an absent channel reads as
the empty set, as a nil Go map does). -/
def seenMem (s : Seens) (cid : Int) (k : ArticleKey) : Prop :=
  k ∈ ((afind cid s).getD [])

instance (s : Seens) (cid : Int) (k : ArticleKey) : Decidable (seenMem s cid k) := by
  unfold seenMem; infer_instance

/-- One feed item as the poll cycle sees it. -/
structure Item where
  title : String
  published : Option DateTime
  updated : Option DateTime
  link : String
deriving DecidableEq

/-- The item's derived key. -/
def itemKey (it : Item) : Option ArticleKey :=
  NewArticleKey it.title it.published it.updated

/-- All keys a list of items derives. -/
def itemKeys (items : List Item) : List ArticleKey := items.filterMap itemKey

/-- One channel's inner loop of `Server.update`: for each item derive the
key, call `MarkSeen`, and when it was not already seen queue the item if
its key sorts strictly after the cutoff key.  `none` models the nil-time
fault inside `NewArticleKey`. -/
def processItemsAux (cutoff : ArticleKey) (cid : Int) :
    List Item → Seens → List (ArticleKey × Item) →
    Option (Seens × List (ArticleKey × Item))
  | [], s, q => some (s, q)
  | it :: rest, s, q =>
    match itemKey it with
    | none => none
    | some a =>
      if (Seens.markSeen s cid a).2 then
        processItemsAux cutoff cid rest (Seens.markSeen s cid a).1 q
      else
        processItemsAux cutoff cid rest (Seens.markSeen s cid a).1
          (if strLtb cutoff a then q ++ [(a, it)] else q)

/-- The comparator `Server.update` hands to `sort.Slice`, as the reflexive
relation actually established on the result: `x` need not come after `y`. -/
def pairLe (x y : ArticleKey × Item) : Prop := strLtb y.1 x.1 = false

instance : DecidableRel pairLe := fun x y => by
  unfold pairLe; infer_instance

/-- The `sort.Slice` call on a channel's queued items. -/
def sortQueue (q : List (ArticleKey × Item)) : List (ArticleKey × Item) :=
  List.insertionSort pairLe q

/-- Strict comparison of queued entries by key alone. -/
def pairKeyLt (x y : ArticleKey × Item) : Prop := x.1 < y.1

/-- The serialized shape of the seen-set store: each channel's set written
out as an array of keys, as `Seen.MarshalJSON` produces (in whatever order
the Go map iteration yields). -/
abbrev EncSeens := List (Int × List ArticleKey)

/-- `Seen.UnmarshalJSON` from the source: fold the serialized array back
into a set with `us[a] = struct{}{}` per element. -/
def decodeSeenArr (arr : List ArticleKey) : Seen :=
  arr.foldl (fun s a => if a ∈ s then s else a :: s) []

/-- JSON decoding of the feeds object: rebuild the map entry by entry. -/
def decodeFeeds (e : Feeds) : Feeds := e.foldl (fun m p => aset p.1 p.2 m) []

/-- JSON decoding of the seen-set store: rebuild the map entry by entry,
decoding each channel's array into a set. -/
def decodeSeens (e : EncSeens) : Seens :=
  e.foldl (fun m p => aset p.1 (decodeSeenArr p.2) m) []

/-- One serialized feed entry carries the same url and title and some
reordering of the subscriber set. -/
def feedEntryRel (x y : String × Feed) : Prop :=
  x.1 = y.1 ∧ x.2.title = y.2.title ∧ x.2.chats.Perm y.2.chats

/-- One serialized seen-set entry carries the same channel id and some
reordering of the key set. -/
def seenEntryRel (x y : Int × List ArticleKey) : Prop := x.1 = y.1 ∧ x.2.Perm y.2

/-- `e` is a possible serialization of the server state `(fs, ss)`: each
mapping is written out in some iteration order, each set in some iteration
order. -/
def SerOf (fs : Feeds) (ss : Seens) (ef : Feeds) (es : EncSeens) : Prop :=
  (∃ g, List.Forall₂ feedEntryRel fs g ∧ g.Perm ef) ∧
  (∃ g, List.Forall₂ seenEntryRel ss g ∧ g.Perm es)

/-- The cached title the registry holds for a url. -/
def feedTitle (f : Feeds) (url : String) : Option String := (afind url f).map Feed.title

/-- Channel `cid` is a subscriber of `url` in the registry. -/
def subscribed (f : Feeds) (url : String) (cid : Int) : Prop :=
  ∃ fd, afind url f = some fd ∧ cid ∈ fd.chats

-- ## Basic facts about the executable string order

theorem listLtb_iff : ∀ x y : List Char, listLtb x y = true ↔ List.Lex (· < ·) x y
  | [], [] => by
    constructor
    · intro h; simp [listLtb] at h
    · intro h; cases h
  | [], b :: bs => by
    constructor
    · intro _; exact List.Lex.nil
    · intro _; rfl
  | a :: as, [] => by
    constructor
    · intro h; simp [listLtb] at h
    · intro h; cases h
  | a :: as, b :: bs => by
    show (if a < b then true else if b < a then false else listLtb as bs) = true ↔ _
    by_cases hab : a < b
    · rw [if_pos hab]
      constructor
      · intro _; exact List.Lex.rel hab
      · intro _; rfl
    · by_cases hba : b < a
      · rw [if_neg hab, if_pos hba]
        constructor
        · intro h; cases h
        · intro h
          cases h with
          | rel h => exact absurd h hab
          | cons h => exact absurd hba (lt_irrefl a)
      · have heq : a = b := le_antisymm (not_lt.mp hba) (not_lt.mp hab)
        subst heq
        rw [if_neg hab, if_neg hba]
        rw [listLtb_iff as bs]
        constructor
        · exact List.Lex.cons
        · intro h
          cases h with
          | rel h => exact absurd h (lt_irrefl a)
          | cons h => exact h

theorem strLtb_iff (a b : String) : strLtb a b = true ↔ a < b := by
  rw [String.lt_iff_toList_lt]
  exact listLtb_iff a.data b.data

theorem strLtb_false_iff (a b : String) : strLtb a b = false ↔ ¬ a < b := by
  rw [← strLtb_iff]
  constructor
  · intro h hc; rw [h] at hc; cases hc
  · intro h
    cases hv : strLtb a b with
    | false => rfl
    | true => exact absurd hv h

-- ## Basic facts about association lists

theorem afind_aset {α β : Type} [DecidableEq α] (k : α) (v : β) :
    ∀ m : List (α × β), afind k (aset k v m) = some v
  | [] => by simp [afind, aset]
  | (k', v') :: t => by
    by_cases h : k = k'
    · simp [afind, aset, h]
    · simp [afind, aset, h, afind_aset k v t]

theorem afind_aset_ne {α β : Type} [DecidableEq α] {k k' : α} (v : β) (h : k' ≠ k) :
    ∀ m : List (α × β), afind k' (aset k v m) = afind k' m
  | [] => by simp [afind, aset, h]
  | (k₀, v₀) :: t => by
    by_cases h0 : k = k₀
    · subst h0; simp [afind, aset, h]
    · by_cases h1 : k' = k₀ <;> simp [afind, aset, h0, h1, afind_aset_ne v h t]

theorem afind_amod {α β : Type} [DecidableEq α] (k : α) (g : β → β) :
    ∀ m : List (α × β), afind k (amod k g m) = (afind k m).map g
  | [] => by simp [afind, amod]
  | (k', v') :: t => by
    by_cases h : k = k'
    · simp [afind, amod, h]
    · simp [afind, amod, h, afind_amod k g t]

theorem afind_eq_none_iff {α β : Type} [DecidableEq α] (k : α) :
    ∀ m : List (α × β), afind k m = none ↔ k ∉ m.map Prod.fst
  | [] => by simp [afind]
  | (k', v') :: t => by
    by_cases h : k = k'
    · simp [afind, h]
    · simp [afind, h, afind_eq_none_iff k t]

-- ## Facts about MarkSeen

theorem markSeen_snd (s : Seens) (cid : Int) (a : ArticleKey) :
    (Seens.markSeen s cid a).2 = true ↔ seenMem s cid a := by
  unfold Seens.markSeen seenMem
  by_cases h : a ∈ (afind cid s).getD [] <;> simp [h]

theorem markSeen_mem (s : Seens) (cid : Int) (a k : ArticleKey) :
    seenMem (Seens.markSeen s cid a).1 cid k ↔ k = a ∨ seenMem s cid k := by
  unfold Seens.markSeen
  by_cases h : a ∈ (afind cid s).getD []
  · simp only [h, if_pos]
    constructor
    · exact Or.inr
    · rintro (rfl | hk)
      · exact h
      · exact hk
  · simp only [h, if_neg, not_false_eq_true]
    unfold seenMem
    rw [afind_aset]
    simp

theorem markSeen_unseen_fst (s : Seens) (cid : Int) (a : ArticleKey)
    (h : ¬ seenMem s cid a) :
    (Seens.markSeen s cid a).1 = aset cid (a :: (afind cid s).getD []) s := by
  unfold Seens.markSeen
  unfold seenMem at h
  simp [h]

theorem markSeen_seen (s : Seens) (cid : Int) (a : ArticleKey)
    (h : seenMem s cid a) :
    Seens.markSeen s cid a = (s, true) := by
  unfold Seens.markSeen
  unfold seenMem at h
  simp [h]

theorem markSeen_not_seen (s : Seens) (cid : Int) (a : ArticleKey)
    (h : ¬ seenMem s cid a) :
    Seens.markSeen s cid a = (aset cid (a :: (afind cid s).getD []) s, false) := by
  unfold Seens.markSeen
  unfold seenMem at h
  simp [h]

theorem seenMem_insert (s : Seens) (cid : Int) (a k : ArticleKey) :
    seenMem (aset cid (a :: (afind cid s).getD []) s) cid k ↔ k = a ∨ seenMem s cid k := by
  unfold seenMem
  rw [afind_aset]
  simp

/-- Claim C2: MarkSeen tests membership and inserts when absent, returning
the previous membership; on a state where the key is unseen, two
consecutive calls return false then true, and the key is a member of the
channel's seen-set afterwards. -/
theorem markSeen_spec (s : Seens) (cid : Int) (k : ArticleKey) :
    ((Seens.markSeen s cid k).2 = true ↔ seenMem s cid k) ∧
    seenMem (Seens.markSeen s cid k).1 cid k ∧
    (¬ seenMem s cid k →
      (Seens.markSeen s cid k).2 = false ∧
      (Seens.markSeen (Seens.markSeen s cid k).1 cid k).2 = true ∧
      seenMem (Seens.markSeen (Seens.markSeen s cid k).1 cid k).1 cid k) := by
  have h1 := markSeen_snd s cid k
  have h2 : seenMem (Seens.markSeen s cid k).1 cid k :=
    (markSeen_mem s cid k k).mpr (Or.inl rfl)
  refine ⟨h1, h2, fun h => ⟨?_, ?_, ?_⟩⟩
  · cases hv : (Seens.markSeen s cid k).2 with
    | false => rfl
    | true => exact absurd (h1.mp hv) h
  · exact (markSeen_snd _ cid k).mpr h2
  · exact (markSeen_mem _ cid k k).mpr (Or.inl rfl)

/-- Witness for C2 at a concrete state where the key is unseen. -/
theorem markSeen_spec_witness :
    (Seens.markSeen [(4, ["b"])] 4 "a").2 = false ∧
    (Seens.markSeen (Seens.markSeen [(4, ["b"])] 4 "a").1 4 "a").2 = true ∧
    seenMem (Seens.markSeen (Seens.markSeen [(4, ["b"])] 4 "a").1 4 "a").1 4 "a" :=
  (markSeen_spec [(4, ["b"])] 4 "a").2.2 (by decide)

/-- Claim C5: the derived key is a function of the title and the effective
timestamp alone (updated superseding published); no other input of the
call influences the result. -/
theorem newArticleKey_eff (title : String) (p₁ u₁ p₂ u₂ : Option DateTime)
    (h : effTime p₁ u₁ = effTime p₂ u₂) :
    NewArticleKey title p₁ u₁ = NewArticleKey title p₂ u₂ := by
  unfold NewArticleKey
  rw [h]

/-- Witness for C5: the same stamp supplied as published on one side and as
updated on the other yields the same key. -/
theorem newArticleKey_eff_witness :
    NewArticleKey "t" (some ⟨2020, 1, 2, 3, 4, 5⟩) none =
      NewArticleKey "t" none (some ⟨2020, 1, 2, 3, 4, 5⟩) :=
  newArticleKey_eff "t" (some ⟨2020, 1, 2, 3, 4, 5⟩) none none
    (some ⟨2020, 1, 2, 3, 4, 5⟩) (by decide)

/-- Claim C9: `NewArticleKey` returns a key exactly when at least one of
the two timestamps is present; with both absent the nil dereference fires
and no key is produced. -/
theorem newArticleKey_total_iff (title : String) (ts up : Option DateTime) :
    (NewArticleKey title ts up).isSome ↔ (ts.isSome ∨ up.isSome) := by
  cases ts <;> cases up <;> simp [NewArticleKey, effTime]

/-- Claim C6: `Add` on an unknown url whose fetch fails reports the error
and leaves the registry exactly as it was. -/
theorem feeds_add_fetch_fail (f : Feeds) (url : String) (cid : Int)
    (h : afind url f = none) :
    Feeds.add none f url cid = (f, false) := by
  unfold Feeds.add
  rw [h]

/-- Witness for C6 at a concrete registry. -/
theorem feeds_add_fetch_fail_witness :
    Feeds.add none [("u", NewFeed "T")] "v" 3 = ([("u", NewFeed "T")], false) :=
  feeds_add_fetch_fail [("u", NewFeed "T")] "v" 3 (by decide)

-- ## Remove: exact-url branch, title fallback, and the empty-query corner

theorem containsB_nil : ∀ hay : List Char, containsB [] hay = true
  | [] => rfl
  | _ :: _ => rfl

theorem rmChat_not_mem (fd : Feed) (cid : Int) : cid ∉ (Feed.rmChat fd cid).chats := by
  unfold Feed.rmChat
  simp [List.mem_filter]

/-- Counterexample for C7: with the empty string as a registry key, `Rm`
with an exact key match (`url = ""`) skips the exact branch, fails the
title fallback, and returns the not-found error without removing anything,
though the claim promises success. -/
theorem feeds_rm_cex :
    (afind "" [("", Feed.mk [7] "x")]).isSome = true ∧
    Feeds.rm [("", Feed.mk [7] "x")] "" "zzz" 7 = ([("", Feed.mk [7] "x")], false) := by
  constructor
  · rfl
  · rfl

/-- Claim C7 (amended: the exact-url branch additionally requires the url
to be non-empty): a non-empty exact-key url gets the channel removed from
that feed and succeeds; otherwise the first title substring match in
iteration order gets the channel removed; the error fires exactly when
neither applies, and then the registry is unchanged. -/
theorem feeds_rm_spec (f : Feeds) (url q : String) (cid : Int) :
    (url ≠ "" → (afind url f).isSome →
      (Feeds.rm f url q cid).2 = true ∧
      (Feeds.rm f url q cid).1 = amod url (fun fd => fd.rmChat cid) f ∧
      ∀ fd', afind url (Feeds.rm f url q cid).1 = some fd' → cid ∉ fd'.chats) ∧
    ((url = "" ∨ afind url f = none) →
      (∀ u, findTitleMatch (lowerStr q) f = some u →
        (Feeds.rm f url q cid).2 = true ∧
        (Feeds.rm f url q cid).1 = amod u (fun fd => fd.rmChat cid) f) ∧
      (findTitleMatch (lowerStr q) f = none → Feeds.rm f url q cid = (f, false))) ∧
    ((Feeds.rm f url q cid).2 = false ↔
      ((url = "" ∨ afind url f = none) ∧ findTitleMatch (lowerStr q) f = none)) ∧
    ((Feeds.rm f url q cid).2 = false → (Feeds.rm f url q cid).1 = f) := by
  by_cases hcond : url ≠ "" ∧ (afind url f).isSome
  · have hrm : Feeds.rm f url q cid = (amod url (fun fd => fd.rmChat cid) f, true) := by
      rw [Feeds.rm, if_pos hcond]
    refine ⟨fun _ _ => ⟨by rw [hrm], by rw [hrm], ?_⟩, fun hor => ?_, ?_, ?_⟩
    · intro fd' h'
      rw [hrm] at h'
      rw [afind_amod] at h'
      obtain ⟨fd, hfd⟩ := Option.isSome_iff_exists.mp hcond.2
      rw [hfd] at h'
      have h'' : fd.rmChat cid = fd' := Option.some.inj h'
      rw [← h'']
      exact rmChat_not_mem fd cid
    · rcases hor with h0 | h0
      · exact absurd h0 hcond.1
      · have h2 := hcond.2
        rw [h0] at h2
        simp at h2
    · rw [hrm]
      constructor
      · intro h; simp at h
      · rintro ⟨h0 | h0, -⟩
        · exact absurd h0 hcond.1
        · have h2 := hcond.2
          rw [h0] at h2
          simp at h2
    · rw [hrm]
      intro h; simp at h
  · have hor : url = "" ∨ afind url f = none := by
      rcases not_and_or.mp hcond with h0 | h0
      · exact Or.inl (not_not.mp h0)
      · exact Or.inr (Option.not_isSome_iff_eq_none.mp h0)
    cases hm : findTitleMatch (lowerStr q) f with
    | some u =>
      have hrm : Feeds.rm f url q cid = (amod u (fun fd => fd.rmChat cid) f, true) := by
        rw [Feeds.rm, if_neg hcond, hm]
      refine ⟨fun hne hsome => absurd ⟨hne, hsome⟩ hcond, fun _ => ⟨?_, ?_⟩, ?_, ?_⟩
      · intro u' hu'
        injection hu' with hu'
        subst hu'
        exact ⟨by rw [hrm], by rw [hrm]⟩
      · intro h0; exact Option.noConfusion h0
      · rw [hrm]
        constructor
        · intro h; simp at h
        · rintro ⟨-, h0⟩; exact Option.noConfusion h0
      · rw [hrm]; intro h; simp at h
    | none =>
      have hrm : Feeds.rm f url q cid = (f, false) := by
        rw [Feeds.rm, if_neg hcond, hm]
      refine ⟨fun hne hsome => absurd ⟨hne, hsome⟩ hcond, fun _ => ⟨?_, fun _ => hrm⟩, ?_, ?_⟩
      · intro u' hu'; exact Option.noConfusion hu'
      · rw [hrm]
        exact ⟨fun _ => ⟨hor, rfl⟩, fun _ => rfl⟩
      · intro _; rw [hrm]

/-- Witness for the amended C7 at a concrete registry: exact-url removal. -/
theorem feeds_rm_spec_witness :
    (Feeds.rm [("u", Feed.mk [3] "Tech")] "u" "x" 3).2 = true ∧
    (Feeds.rm [("u", Feed.mk [3] "Tech")] "u" "x" 3).1 =
      amod "u" (fun fd => fd.rmChat 3) [("u", Feed.mk [3] "Tech")] ∧
    ∀ fd', afind "u" (Feeds.rm [("u", Feed.mk [3] "Tech")] "u" "x" 3).1 = some fd' →
      (3 : Int) ∉ fd'.chats :=
  (feeds_rm_spec [("u", Feed.mk [3] "Tech")] "u" "x" 3).1 (by decide) (by decide)

/-- Claim C10: with a non-empty registry and a url that is not a key,
`Rm` with the empty title query always succeeds, removing the channel from
some feed, because every title contains the empty substring; the not-found
error is reachable only with an empty registry or a non-empty query. -/
theorem feeds_rm_empty_query (f : Feeds) (url : String) (cid : Int) :
    (f ≠ [] → afind url f = none →
      (Feeds.rm f url "" cid).2 = true ∧
      ∃ u fd, (u, fd) ∈ f ∧
        (Feeds.rm f url "" cid).1 = amod u (fun x => x.rmChat cid) f) ∧
    (∀ q, (Feeds.rm f url q cid).2 = false → f = [] ∨ q ≠ "") := by
  have hkey : ∀ t : Feeds, ∀ u₀ fd₀, findTitleMatch (lowerStr "") ((u₀, fd₀) :: t) = some u₀ := by
    intro t u₀ fd₀
    unfold findTitleMatch
    have : goContains (lowerStr fd₀.title) (lowerStr "") = true := containsB_nil _
    rw [this]
    simp
  constructor
  · intro hne hnone
    rcases f with _ | ⟨⟨u₀, fd₀⟩, t⟩
    · exact absurd rfl hne
    · have hcond : ¬ (url ≠ "" ∧ (afind url ((u₀, fd₀) :: t)).isSome) := by
        rw [hnone]
        simp
      have hrm : Feeds.rm ((u₀, fd₀) :: t) url "" cid =
          (amod u₀ (fun fd => fd.rmChat cid) ((u₀, fd₀) :: t), true) := by
        rw [Feeds.rm, if_neg hcond, hkey t u₀ fd₀]
      exact ⟨by rw [hrm], u₀, fd₀, List.mem_cons_self _ _, by rw [hrm]⟩
  · intro q h
    rcases f with _ | ⟨⟨u₀, fd₀⟩, t⟩
    · exact Or.inl rfl
    · right
      intro hq
      subst hq
      by_cases hcond : url ≠ "" ∧ (afind url ((u₀, fd₀) :: t)).isSome
      · rw [Feeds.rm, if_pos hcond] at h
        simp at h
      · rw [Feeds.rm, if_neg hcond, hkey t u₀ fd₀] at h
        simp at h

/-- Witness for C10 at a concrete registry. -/
theorem feeds_rm_empty_query_witness :
    (Feeds.rm [("u", Feed.mk [3] "Tech")] "v" "" 3).2 = true ∧
    ∃ u fd, (u, fd) ∈ [("u", Feed.mk [3] "Tech")] ∧
      (Feeds.rm [("u", Feed.mk [3] "Tech")] "v" "" 3).1 =
        amod u (fun x => x.rmChat 3) [("u", Feed.mk [3] "Tech")] :=
  (feeds_rm_empty_query [("u", Feed.mk [3] "Tech")] "v" 3).1 (by decide) (by decide)

-- ## Lexicographic order of RFC3339-prefixed keys

theorem lex_single_iff (a b : Char) : List.Lex (· < ·) [a] [b] ↔ a < b := by
  constructor
  · intro h
    cases h with
    | rel h => exact h
    | cons h => cases h
  · exact List.Lex.rel

theorem lex_cons_same (c : Char) (l₁ l₂ : List Char) :
    List.Lex (· < ·) (c :: l₁) (c :: l₂) ↔ List.Lex (· < ·) l₁ l₂ := by
  constructor
  · intro h
    cases h with
    | cons h => exact h
    | rel h => exact absurd h (lt_irrefl c)
  · exact List.Lex.cons

theorem lex_append_iff : ∀ (l₁ l₂ r₁ r₂ : List Char), l₁.length = l₂.length →
    (List.Lex (· < ·) (l₁ ++ r₁) (l₂ ++ r₂) ↔
      List.Lex (· < ·) l₁ l₂ ∨ (l₁ = l₂ ∧ List.Lex (· < ·) r₁ r₂))
  | [], [], r₁, r₂, _ => by
    constructor
    · intro h; exact Or.inr ⟨rfl, h⟩
    · rintro (h | ⟨-, h⟩)
      · cases h
      · exact h
  | [], b :: bs, r₁, r₂, h => by simp at h
  | a :: as, [], r₁, r₂, h => by simp at h
  | a :: as, b :: bs, r₁, r₂, h => by
    have hlen : as.length = bs.length := by simpa using h
    show List.Lex _ (a :: (as ++ r₁)) (b :: (bs ++ r₂)) ↔ _
    by_cases hab : a < b
    · constructor
      · intro _; exact Or.inl (List.Lex.rel hab)
      · intro _; exact List.Lex.rel hab
    · by_cases hba : b < a
      · constructor
        · intro hl
          cases hl with
          | rel h0 => exact absurd h0 hab
          | cons h0 => exact absurd hba (lt_irrefl a)
        · rintro (hl | ⟨heq, hl⟩)
          · cases hl with
            | rel h0 => exact absurd h0 hab
            | cons h0 => exact absurd hba (lt_irrefl a)
          · injection heq with h1 h2
            exact absurd hba (h1 ▸ lt_irrefl a)
      · have heq : a = b := le_antisymm (not_lt.mp hba) (not_lt.mp hab)
        subst heq
        simp only [lex_cons_same, List.cons.injEq, eq_self_iff_true, true_and]
        exact lex_append_iff as bs r₁ r₂ hlen

theorem digitCh_lt_iff {a b : Nat} (ha : a < 10) (hb : b < 10) :
    digitCh a < digitCh b ↔ a < b := by
  interval_cases a <;> interval_cases b <;> decide

theorem digitCh_inj {a b : Nat} (ha : a < 10) (hb : b < 10) :
    digitCh a = digitCh b ↔ a = b := by
  interval_cases a <;> interval_cases b <;> decide

theorem pad2_lt_iff {a b : Nat} (ha : a < 100) (hb : b < 100) :
    List.Lex (· < ·) (pad2 a) (pad2 b) ↔ a < b := by
  show List.Lex (· < ·) ([digitCh (a / 10)] ++ [digitCh (a % 10)])
    ([digitCh (b / 10)] ++ [digitCh (b % 10)]) ↔ a < b
  rw [lex_append_iff [digitCh (a / 10)] [digitCh (b / 10)] _ _ rfl,
    lex_single_iff, lex_single_iff,
    digitCh_lt_iff (by omega) (by omega), digitCh_lt_iff (by omega) (by omega)]
  have hinj : ([digitCh (a / 10)] = [digitCh (b / 10)]) ↔ a / 10 = b / 10 := by
    constructor
    · intro h
      injection h with h1 _
      exact (digitCh_inj (by omega) (by omega)).mp h1
    · intro h; rw [h]
  rw [hinj]
  omega

theorem pad2_eq_iff {a b : Nat} (ha : a < 100) (hb : b < 100) :
    pad2 a = pad2 b ↔ a = b := by
  unfold pad2
  constructor
  · intro h
    injection h with h1 h2
    injection h2 with h2 _
    have e1 := (digitCh_inj (a := a / 10) (b := b / 10) (by omega) (by omega)).mp h1
    have e2 := (digitCh_inj (a := a % 10) (b := b % 10) (by omega) (by omega)).mp h2
    omega
  · intro h; rw [h]

theorem pad4_lt_iff {a b : Nat} (ha : a < 10000) (hb : b < 10000) :
    List.Lex (· < ·) (pad4 a) (pad4 b) ↔ a < b := by
  unfold pad4
  rw [lex_append_iff (pad2 (a / 100)) (pad2 (b / 100)) _ _ rfl,
    pad2_lt_iff (by omega) (by omega), pad2_lt_iff (by omega) (by omega),
    pad2_eq_iff (by omega) (by omega)]
  omega

theorem pad4_eq_iff {a b : Nat} (ha : a < 10000) (hb : b < 10000) :
    pad4 a = pad4 b ↔ a = b := by
  unfold pad4
  constructor
  · intro h
    have hp := List.append_inj h rfl
    have e1 := (pad2_eq_iff (a := a / 100) (b := b / 100) (by omega) (by omega)).mp hp.1
    have e2 := (pad2_eq_iff (a := a % 100) (b := b % 100) (by omega) (by omega)).mp hp.2
    omega
  · intro h; rw [h]

theorem dateTime_eq_iff {t₁ t₂ : DateTime} :
    t₁ = t₂ ↔ (t₁.year = t₂.year ∧ t₁.month = t₂.month ∧ t₁.day = t₂.day ∧
      t₁.hour = t₂.hour ∧ t₁.minute = t₂.minute ∧ t₁.second = t₂.second) := by
  constructor
  · intro h; subst h; exact ⟨rfl, rfl, rfl, rfl, rfl, rfl⟩
  · intro h
    cases t₁; cases t₂
    simp_all

theorem fmt_lex_iff {t₁ t₂ : DateTime} (h₁ : t₁.Valid) (h₂ : t₂.Valid)
    (tail₁ tail₂ : List Char) :
    List.Lex (· < ·) (fmtList t₁ tail₁) (fmtList t₂ tail₂) ↔
      chronoLt t₁ t₂ ∨ (t₁ = t₂ ∧ List.Lex (· < ·) tail₁ tail₂) := by
  obtain ⟨hy₁, hmo₁, hd₁, hh₁, hmi₁, hs₁⟩ := h₁
  obtain ⟨hy₂, hmo₂, hd₂, hh₂, hmi₂, hs₂⟩ := h₂
  unfold fmtList
  rw [lex_append_iff (pad4 t₁.year) (pad4 t₂.year) _ _ rfl,
    pad4_lt_iff hy₁ hy₂, pad4_eq_iff hy₁ hy₂, lex_cons_same,
    lex_append_iff (pad2 t₁.month) (pad2 t₂.month) _ _ rfl,
    pad2_lt_iff hmo₁ hmo₂, pad2_eq_iff hmo₁ hmo₂, lex_cons_same,
    lex_append_iff (pad2 t₁.day) (pad2 t₂.day) _ _ rfl,
    pad2_lt_iff hd₁ hd₂, pad2_eq_iff hd₁ hd₂, lex_cons_same,
    lex_append_iff (pad2 t₁.hour) (pad2 t₂.hour) _ _ rfl,
    pad2_lt_iff hh₁ hh₂, pad2_eq_iff hh₁ hh₂, lex_cons_same,
    lex_append_iff (pad2 t₁.minute) (pad2 t₂.minute) _ _ rfl,
    pad2_lt_iff hmi₁ hmi₂, pad2_eq_iff hmi₁ hmi₂, lex_cons_same,
    lex_append_iff (pad2 t₁.second) (pad2 t₂.second) _ _ rfl,
    pad2_lt_iff hs₁ hs₂, pad2_eq_iff hs₁ hs₂, lex_cons_same,
    dateTime_eq_iff]
  unfold chronoLt
  tauto

theorem strLt_iff_lex (x y : String) : x < y ↔ List.Lex (· < ·) x.data y.data := by
  rw [String.lt_iff_toList_lt]
  exact Iff.rfl

theorem keyOf_data (t : DateTime) (title : String) :
    (keyOf t title).data = fmtList t ('-' :: title.data) := by
  have hdash : ("-" : String).data = ['-'] := rfl
  unfold keyOf formatRFC3339
  rw [String.data_append, String.data_append, hdash]
  show fmtList t [] ++ (['-'] ++ title.data) = _
  unfold fmtList
  simp [List.append_assoc]

theorem keyOf_lt_iff {t₁ t₂ : DateTime} (h₁ : t₁.Valid) (h₂ : t₂.Valid)
    (a b : String) :
    keyOf t₁ a < keyOf t₂ b ↔ chronoLt t₁ t₂ ∨ (t₁ = t₂ ∧ a < b) := by
  rw [strLt_iff_lex, keyOf_data, keyOf_data, fmt_lex_iff h₁ h₂, lex_cons_same,
    ← strLt_iff_lex]

theorem chronoLt_irrefl (t : DateTime) : ¬ chronoLt t t := by
  unfold chronoLt; omega

theorem chronoLt_asymm {t₁ t₂ : DateTime} (h : chronoLt t₁ t₂) : ¬ chronoLt t₂ t₁ := by
  unfold chronoLt at *; omega

theorem chronoLt_ne {t₁ t₂ : DateTime} (h : chronoLt t₁ t₂) : t₁ ≠ t₂ := by
  intro he; subst he; exact chronoLt_irrefl t₁ h

/-- Claim C4: lexicographic order on derived keys agrees with chronological
order of the effective timestamps, with ties broken by the title order. -/
theorem keyOrder_chronological (t₁ t₂ : DateTime) (h₁ : t₁.Valid) (h₂ : t₂.Valid)
    (a b : String) :
    (chronoLt t₁ t₂ → keyOf t₁ a < keyOf t₂ b) ∧
    (t₁ = t₂ → (keyOf t₁ a < keyOf t₂ b ↔ a < b)) := by
  constructor
  · intro h
    exact (keyOf_lt_iff h₁ h₂ a b).mpr (Or.inl h)
  · intro h
    rw [keyOf_lt_iff h₁ h₂ a b]
    constructor
    · rintro (hc | ⟨-, hab⟩)
      · subst h
        exact absurd hc (chronoLt_irrefl t₁)
      · exact hab
    · intro hab
      exact Or.inr ⟨h, hab⟩

/-- Witness for C4: an earlier year gives a strictly smaller key even
though the titles compare the other way. -/
theorem keyOrder_chronological_witness :
    keyOf ⟨2020, 1, 2, 3, 4, 5⟩ "b" < keyOf ⟨2021, 1, 2, 3, 4, 5⟩ "a" :=
  (keyOrder_chronological ⟨2020, 1, 2, 3, 4, 5⟩ ⟨2021, 1, 2, 3, 4, 5⟩
    (by decide) (by decide) "b" "a").1 (by decide)

-- ## The per-channel poll cycle loop

theorem pia_cons_key {cutoff : ArticleKey} {cid : Int} {it : Item} {rest : List Item}
    {s : Seens} {q : List (ArticleKey × Item)} {a : ArticleKey}
    (hk : itemKey it = some a) :
    processItemsAux cutoff cid (it :: rest) s q =
      if (Seens.markSeen s cid a).2 then
        processItemsAux cutoff cid rest (Seens.markSeen s cid a).1 q
      else
        processItemsAux cutoff cid rest (Seens.markSeen s cid a).1
          (if strLtb cutoff a then q ++ [(a, it)] else q) := by
  simp only [processItemsAux, hk]

theorem pia_cons_fault {cutoff : ArticleKey} {cid : Int} {it : Item} {rest : List Item}
    {s : Seens} {q : List (ArticleKey × Item)} (hk : itemKey it = none) :
    processItemsAux cutoff cid (it :: rest) s q = none := by
  simp only [processItemsAux, hk]

theorem pia_cons_seen {cutoff : ArticleKey} {cid : Int} {it : Item} {rest : List Item}
    {s : Seens} {q : List (ArticleKey × Item)} {a : ArticleKey}
    (hk : itemKey it = some a) (hs : seenMem s cid a) :
    processItemsAux cutoff cid (it :: rest) s q = processItemsAux cutoff cid rest s q := by
  rw [pia_cons_key hk, markSeen_seen s cid a hs]
  simp

theorem pia_cons_unseen {cutoff : ArticleKey} {cid : Int} {it : Item} {rest : List Item}
    {s : Seens} {q : List (ArticleKey × Item)} {a : ArticleKey}
    (hk : itemKey it = some a) (hs : ¬ seenMem s cid a) :
    processItemsAux cutoff cid (it :: rest) s q =
      processItemsAux cutoff cid rest (aset cid (a :: (afind cid s).getD []) s)
        (if strLtb cutoff a then q ++ [(a, it)] else q) := by
  rw [pia_cons_key hk, markSeen_not_seen s cid a hs]
  simp

theorem pia_append (cutoff : ArticleKey) (cid : Int) (xs ys : List Item) :
    ∀ (s : Seens) (q : List (ArticleKey × Item)),
    processItemsAux cutoff cid (xs ++ ys) s q =
      (processItemsAux cutoff cid xs s q).bind
        (fun p => processItemsAux cutoff cid ys p.1 p.2) := by
  induction xs with
  | nil => intro s q; rfl
  | cons it xs ih =>
    intro s q
    show processItemsAux cutoff cid (it :: (xs ++ ys)) s q = _
    cases hk : itemKey it with
    | none =>
      rw [pia_cons_fault hk, pia_cons_fault hk]
      rfl
    | some a =>
      by_cases hs : seenMem s cid a
      · rw [pia_cons_seen hk hs, pia_cons_seen hk hs, ih]
      · rw [pia_cons_unseen hk hs, pia_cons_unseen hk hs, ih]

theorem pia_seen_iff (cutoff : ArticleKey) (cid : Int) (items : List Item) :
    ∀ (s : Seens) (q : List (ArticleKey × Item)) (s' : Seens)
      (q' : List (ArticleKey × Item)),
    processItemsAux cutoff cid items s q = some (s', q') →
    ∀ k, seenMem s' cid k ↔ (seenMem s cid k ∨ k ∈ itemKeys items) := by
  induction items with
  | nil =>
    intro s q s' q' h k
    have h' : some (s, q) = some (s', q') := h
    injection h' with hp
    injection hp with h1 h2
    subst h1
    simp [itemKeys]
  | cons it items ih =>
    intro s q s' q' h k
    cases hk : itemKey it with
    | none => rw [pia_cons_fault hk] at h; cases h
    | some a =>
      have hkeys : itemKeys (it :: items) = a :: itemKeys items := by
        simp [itemKeys, hk]
      rw [hkeys]
      by_cases hs : seenMem s cid a
      · rw [pia_cons_seen hk hs] at h
        rw [ih s q s' q' h k, List.mem_cons]
        constructor
        · rintro (h0 | h0)
          · exact Or.inl h0
          · exact Or.inr (Or.inr h0)
        · rintro (h0 | h0 | h0)
          · exact Or.inl h0
          · exact Or.inl (by rw [h0]; exact hs)
          · exact Or.inr h0
      · rw [pia_cons_unseen hk hs] at h
        rw [ih _ _ s' q' h k, seenMem_insert, List.mem_cons]
        tauto

theorem pia_queue_mono (cutoff : ArticleKey) (cid : Int) (items : List Item) :
    ∀ (s : Seens) (q : List (ArticleKey × Item)) (s' : Seens)
      (q' : List (ArticleKey × Item)),
    processItemsAux cutoff cid items s q = some (s', q') →
    ∀ p, p ∈ q → p ∈ q' := by
  induction items with
  | nil =>
    intro s q s' q' h p hp
    have h' : some (s, q) = some (s', q') := h
    injection h' with hp'
    injection hp' with h1 h2
    subst h2
    exact hp
  | cons it items ih =>
    intro s q s' q' h p hp
    cases hk : itemKey it with
    | none => rw [pia_cons_fault hk] at h; cases h
    | some a =>
      by_cases hs : seenMem s cid a
      · rw [pia_cons_seen hk hs] at h
        exact ih s q s' q' h p hp
      · rw [pia_cons_unseen hk hs] at h
        refine ih _ _ s' q' h p ?_
        split
        · exact List.mem_append_left _ hp
        · exact hp

theorem pia_queue_sub (cutoff : ArticleKey) (cid : Int) (items : List Item) :
    ∀ (s : Seens) (q : List (ArticleKey × Item)) (s' : Seens)
      (q' : List (ArticleKey × Item)),
    processItemsAux cutoff cid items s q = some (s', q') →
    ∀ p : ArticleKey × Item, p ∈ q' →
      p ∈ q ∨ (p.1 ∈ itemKeys items ∧ ¬ seenMem s cid p.1) := by
  induction items with
  | nil =>
    intro s q s' q' h p hp
    have h' : some (s, q) = some (s', q') := h
    injection h' with hp'
    injection hp' with h1 h2
    subst h2
    exact Or.inl hp
  | cons it items ih =>
    intro s q s' q' h p hp
    cases hk : itemKey it with
    | none => rw [pia_cons_fault hk] at h; cases h
    | some a =>
      have hkeys : itemKeys (it :: items) = a :: itemKeys items := by
        simp [itemKeys, hk]
      rw [hkeys]
      by_cases hs : seenMem s cid a
      · rw [pia_cons_seen hk hs] at h
        rcases ih s q s' q' h p hp with h0 | ⟨h1, h2⟩
        · exact Or.inl h0
        · exact Or.inr ⟨List.mem_cons_of_mem a h1, h2⟩
      · rw [pia_cons_unseen hk hs] at h
        rcases ih _ _ s' q' h p hp with h0 | ⟨h1, h2⟩
        · revert h0
          split
          · intro h0
            rcases List.mem_append.mp h0 with h3 | h3
            · exact Or.inl h3
            · have hpa : p = (a, it) := by simpa using h3
              right
              rw [hpa]
              exact ⟨List.mem_cons_self a _, hs⟩
          · intro h0
            exact Or.inl h0
        · rw [seenMem_insert] at h2
          push_neg at h2
          exact Or.inr ⟨List.mem_cons_of_mem a h1, h2.2⟩

theorem pia_queue_nodup (cutoff : ArticleKey) (cid : Int) (items : List Item) :
    ∀ (s : Seens) (q : List (ArticleKey × Item)) (s' : Seens)
      (q' : List (ArticleKey × Item)),
    processItemsAux cutoff cid items s q = some (s', q') →
    (q.map Prod.fst).Nodup → (∀ k ∈ q.map Prod.fst, seenMem s cid k) →
    (q'.map Prod.fst).Nodup ∧ ∀ k ∈ q'.map Prod.fst, seenMem s' cid k := by
  induction items with
  | nil =>
    intro s q s' q' h hnd hsub
    have h' : some (s, q) = some (s', q') := h
    injection h' with hp'
    injection hp' with h1 h2
    subst h1
    subst h2
    exact ⟨hnd, hsub⟩
  | cons it items ih =>
    intro s q s' q' h hnd hsub
    cases hk : itemKey it with
    | none => rw [pia_cons_fault hk] at h; cases h
    | some a =>
      by_cases hs : seenMem s cid a
      · rw [pia_cons_seen hk hs] at h
        exact ih s q s' q' h hnd hsub
      · rw [pia_cons_unseen hk hs] at h
        refine ih _ _ s' q' h ?_ ?_
        · split
          · rw [List.map_append, List.nodup_append]
            refine ⟨hnd, List.nodup_singleton (α := ArticleKey) a, ?_⟩
            intro x hx hx'
            have hxa : x = a := by simpa using hx'
            subst hxa
            exact hs (hsub x hx)
          · exact hnd
        · intro k hku
          rw [seenMem_insert]
          revert hku
          split
          · intro hku
            rw [List.map_append] at hku
            rcases List.mem_append.mp hku with h3 | h3
            · exact Or.inr (hsub k h3)
            · left
              simpa using h3
          · intro hku
            exact Or.inr (hsub k hku)

/-- Claim C1: in one poll cycle, an item whose key is not in the channel's
seen-set when reached is marked seen regardless of its age, and is queued
for delivery exactly when its key sorts strictly after the cutoff key built
from the cutoff timestamp with empty title; an item whose effective
timestamp is chronologically older than the cutoff timestamp is therefore
marked seen but never queued. -/
theorem update_cutoff_gate (tc : DateTime) (hv : tc.Valid) (cid : Int)
    (seen : Seens) (pre post : List Item) (it : Item) (a c : ArticleKey)
    (s' : Seens) (q' : List (ArticleKey × Item))
    (hcut : NewArticleKey "" (some tc) none = some c)
    (hk : itemKey it = some a)
    (hnew : ¬ seenMem seen cid a) (hpre : a ∉ itemKeys pre)
    (hrun : processItemsAux c cid (pre ++ it :: post) seen [] = some (s', q')) :
    seenMem s' cid a ∧
    ((a, it) ∈ q' ↔ c < a) ∧
    (¬ c < a → a ∉ q'.map Prod.fst) ∧
    (∀ te, effTime it.published it.updated = some te → te.Valid →
      chronoLt te tc → (a, it) ∉ q') := by
  rw [pia_append] at hrun
  cases h1 : processItemsAux c cid pre seen [] with
  | none => rw [h1] at hrun; cases hrun
  | some p =>
    obtain ⟨s₁, q₁⟩ := p
    rw [h1] at hrun
    have hrun2 : processItemsAux c cid (it :: post) s₁ q₁ = some (s', q') := hrun
    have hs₁ : ¬ seenMem s₁ cid a := by
      rw [pia_seen_iff c cid pre seen [] s₁ q₁ h1 a]
      push_neg
      exact ⟨hnew, hpre⟩
    have hq₁ : ∀ p ∈ q₁, p.1 ≠ a := by
      intro p hp
      rcases pia_queue_sub c cid pre seen [] s₁ q₁ h1 p hp with h0 | ⟨h2, _⟩
      · exact absurd h0 (List.not_mem_nil p)
      · intro he
        rw [he] at h2
        exact hpre h2
    rw [pia_cons_unseen hk hs₁] at hrun2
    have hmem : seenMem s' cid a := by
      rw [pia_seen_iff c cid post _ _ s' q' hrun2 a]
      left
      rw [seenMem_insert]
      exact Or.inl rfl
    have hiff : (a, it) ∈ q' ↔ c < a := by
      constructor
      · intro hin
        rcases pia_queue_sub c cid post _ _ s' q' hrun2 (a, it) hin with h0 | ⟨-, hns⟩
        · by_cases hc : c < a
          · exact hc
          · exfalso
            have hsl : strLtb c a = false := (strLtb_false_iff c a).mpr hc
            have hneg : ¬ (strLtb c a = true) := by rw [hsl]; simp
            rw [if_neg hneg] at h0
            exact hq₁ _ h0 rfl
        · exact absurd (by rw [seenMem_insert]; exact Or.inl rfl) hns
      · intro hc
        have hsl : strLtb c a = true := (strLtb_iff c a).mpr hc
        refine pia_queue_mono c cid post _ _ s' q' hrun2 (a, it) ?_
        rw [if_pos hsl]
        exact List.mem_append_right _ (List.mem_singleton.mpr rfl)
    have hnq : ¬ c < a → a ∉ q'.map Prod.fst := by
      intro hc hmem'
      have hsl : strLtb c a = false := (strLtb_false_iff c a).mpr hc
      have hneg : ¬ (strLtb c a = true) := by rw [hsl]; simp
      rcases List.mem_map.mp hmem' with ⟨p, hp, hpa⟩
      rcases pia_queue_sub c cid post _ _ s' q' hrun2 p hp with h0 | ⟨-, hns⟩
      · rw [if_neg hneg] at h0
        exact hq₁ p h0 hpa
      · rw [hpa] at hns
        exact hns (by rw [seenMem_insert]; exact Or.inl rfl)
    refine ⟨hmem, hiff, hnq, ?_⟩
    intro te heff hte hlt
    have ha0 : some (keyOf te it.title) = some a := by
      unfold itemKey NewArticleKey at hk
      rw [heff] at hk
      exact hk
    have ha : a = keyOf te it.title := (Option.some.inj ha0).symm
    have hc0 : some (keyOf tc "") = some c := hcut
    have hcval : c = keyOf tc "" := (Option.some.inj hc0).symm
    have hnc : ¬ c < a := by
      rw [ha, hcval, keyOf_lt_iff hv hte]
      rintro (h0 | ⟨h0, -⟩)
      · exact chronoLt_asymm hlt h0
      · exact chronoLt_ne hlt h0.symm
    intro hin
    exact hnq hnc (List.mem_map.mpr ⟨(a, it), hin, rfl⟩)

/-- Witness for C1: one stale item (eight days older than the cutoff) is
marked seen but the delivery queue stays empty. -/
theorem update_cutoff_gate_witness :
    seenMem [(9, ["2024-01-01T00:00:00Z-Old"])] 9 "2024-01-01T00:00:00Z-Old" ∧
    ("2024-01-01T00:00:00Z-Old", Item.mk "Old" (some ⟨2024, 1, 1, 0, 0, 0⟩) none "L") ∉
      ([] : List (ArticleKey × Item)) := by
  have h := update_cutoff_gate ⟨2024, 1, 9, 0, 0, 0⟩ (by decide) 9 [] [] []
    (Item.mk "Old" (some ⟨2024, 1, 1, 0, 0, 0⟩) none "L")
    "2024-01-01T00:00:00Z-Old" "2024-01-09T00:00:00Z-"
    [(9, ["2024-01-01T00:00:00Z-Old"])] []
    (by decide) (by decide) (by decide) (by decide) (by decide)
  exact ⟨h.1, h.2.2.2 ⟨2024, 1, 1, 0, 0, 0⟩ (by decide) (by decide) (by decide)⟩

-- ## Delivery order within one channel's cycle

theorem pairLe_iff (x y : ArticleKey × Item) : pairLe x y ↔ x.1 ≤ y.1 := by
  unfold pairLe
  rw [strLtb_false_iff]
  exact not_lt

instance : IsTotal (ArticleKey × Item) pairLe :=
  ⟨fun a b => by
    rw [pairLe_iff, pairLe_iff]
    exact le_total a.1 b.1⟩

instance : IsTrans (ArticleKey × Item) pairLe :=
  ⟨fun a b c hab hbc => by
    rw [pairLe_iff] at *
    exact le_trans hab hbc⟩

instance : IsAntisymm (ArticleKey × Item) pairKeyLt :=
  ⟨fun _ _ h1 h2 => absurd h2 (lt_asymm h1)⟩

theorem pairwise_lt_of_le_ne : ∀ {l : List ArticleKey},
    List.Pairwise (· ≤ ·) l → l.Nodup → List.Pairwise (· < ·) l := by
  intro l h1 h2
  induction l with
  | nil => exact List.Pairwise.nil
  | cons a t ih =>
    cases h1 with
    | cons ha h1t =>
      cases h2 with
      | cons hn h2t =>
        exact List.Pairwise.cons (fun b hb => lt_of_le_of_ne (ha b hb) (hn b hb))
          (ih h1t h2t)

/-- Claim C3: within one channel's poll cycle, the queued items are emitted
in ascending `ArticleKey` order: the delivered sequence is a permutation of
the queue, its keys are strictly increasing (keys are pairwise distinct
inside one cycle), and it is the unique such reordering, i.e. the queue
sorted ascending by key. -/
theorem delivery_sorted (cutoff : ArticleKey) (cid : Int) (items : List Item)
    (s s' : Seens) (q' : List (ArticleKey × Item))
    (hrun : processItemsAux cutoff cid items s [] = some (s', q')) :
    (sortQueue q').Perm q' ∧
    List.Pairwise pairLe (sortQueue q') ∧
    List.Pairwise (· < ·) ((sortQueue q').map Prod.fst) ∧
    (∀ l : List (ArticleKey × Item), l.Perm q' →
      List.Pairwise (· < ·) (l.map Prod.fst) → l = sortQueue q') := by
  have hperm : (sortQueue q').Perm q' := List.perm_insertionSort pairLe q'
  have hsorted : List.Sorted pairLe (sortQueue q') := List.sorted_insertionSort pairLe q'
  have hnd : (q'.map Prod.fst).Nodup :=
    (pia_queue_nodup cutoff cid items s [] s' q' hrun List.nodup_nil
      (fun k hk => absurd hk (List.not_mem_nil k))).1
  have hndsort : ((sortQueue q').map Prod.fst).Nodup :=
    ((hperm.map Prod.fst).nodup_iff).mpr hnd
  have hle : List.Pairwise (· ≤ ·) ((sortQueue q').map Prod.fst) := by
    rw [List.pairwise_map]
    exact hsorted.imp (fun h => (pairLe_iff _ _).mp h)
  have hstrict : List.Pairwise (· < ·) ((sortQueue q').map Prod.fst) :=
    pairwise_lt_of_le_ne hle hndsort
  refine ⟨hperm, hsorted, hstrict, ?_⟩
  intro l hl hsl
  refine List.eq_of_perm_of_sorted (r := pairKeyLt) (hl.trans hperm.symm) ?_ ?_
  · exact (@List.pairwise_map _ _ Prod.fst (· < ·) l).mp hsl
  · exact (@List.pairwise_map _ _ Prod.fst (· < ·) (sortQueue q')).mp hstrict

/-- Witness for C3: a queue produced with the newer item first is delivered
oldest-first. -/
theorem delivery_sorted_witness :
    (sortQueue [("2024-01-02T00:00:00Z-b", Item.mk "b" (some ⟨2024, 1, 2, 0, 0, 0⟩) none "l1"),
      ("2024-01-01T00:00:00Z-a", Item.mk "a" (some ⟨2024, 1, 1, 0, 0, 0⟩) none "l2")]).Perm
      [("2024-01-02T00:00:00Z-b", Item.mk "b" (some ⟨2024, 1, 2, 0, 0, 0⟩) none "l1"),
      ("2024-01-01T00:00:00Z-a", Item.mk "a" (some ⟨2024, 1, 1, 0, 0, 0⟩) none "l2")] ∧
    List.Pairwise (· < ·)
      ((sortQueue [("2024-01-02T00:00:00Z-b", Item.mk "b" (some ⟨2024, 1, 2, 0, 0, 0⟩) none "l1"),
        ("2024-01-01T00:00:00Z-a", Item.mk "a" (some ⟨2024, 1, 1, 0, 0, 0⟩) none "l2")]).map
        Prod.fst) := by
  have h := delivery_sorted "" 7
    [Item.mk "b" (some ⟨2024, 1, 2, 0, 0, 0⟩) none "l1",
     Item.mk "a" (some ⟨2024, 1, 1, 0, 0, 0⟩) none "l2"]
    [] [(7, ["2024-01-01T00:00:00Z-a", "2024-01-02T00:00:00Z-b"])]
    [("2024-01-02T00:00:00Z-b", Item.mk "b" (some ⟨2024, 1, 2, 0, 0, 0⟩) none "l1"),
     ("2024-01-01T00:00:00Z-a", Item.mk "a" (some ⟨2024, 1, 1, 0, 0, 0⟩) none "l2")]
    (by decide)
  exact ⟨h.1, h.2.2.1⟩

-- ## Persistence round trip

theorem afind_eq_some_iff {α β : Type} [DecidableEq α] :
    ∀ {l : List (α × β)}, (l.map Prod.fst).Nodup → ∀ (k : α) (v : β),
    (afind k l = some v ↔ (k, v) ∈ l)
  | [], _, k, v => by simp [afind]
  | (k₀, v₀) :: t, hnd, k, v => by
    have hnd' : (t.map Prod.fst).Nodup := (List.nodup_cons.mp hnd).2
    have hk₀ : k₀ ∉ t.map Prod.fst := (List.nodup_cons.mp hnd).1
    by_cases h : k = k₀
    · subst h
      rw [show afind k ((k, v₀) :: t) = some v₀ from by simp [afind]]
      constructor
      · intro hv
        have hv' : v₀ = v := Option.some.inj hv
        subst hv'
        exact List.mem_cons_self _ _
      · intro hv
        rcases List.mem_cons.mp hv with h0 | h0
        · rw [Prod.mk.injEq] at h0
          rw [h0.2]
        · exact absurd (List.mem_map.mpr ⟨(k, v), h0, rfl⟩) hk₀
    · rw [show afind k ((k₀, v₀) :: t) = afind k t from by simp [afind, h]]
      rw [afind_eq_some_iff hnd' k v]
      constructor
      · exact fun h0 => List.mem_cons_of_mem _ h0
      · intro h0
        rcases List.mem_cons.mp h0 with h1 | h1
        · rw [Prod.mk.injEq] at h1
          exact absurd h1.1 h
        · exact h1

theorem afind_perm {α β : Type} [DecidableEq α] {l l' : List (α × β)}
    (hnd : (l.map Prod.fst).Nodup) (hp : l.Perm l') (k : α) :
    afind k l' = afind k l := by
  have hnd' : (l'.map Prod.fst).Nodup := ((hp.map Prod.fst).nodup_iff).mp hnd
  cases h : afind k l with
  | none =>
    rw [afind_eq_none_iff] at h ⊢
    intro hc
    exact h (((hp.map Prod.fst).mem_iff).mpr hc)
  | some v =>
    rw [afind_eq_some_iff hnd' k v]
    exact (hp.mem_iff).mp ((afind_eq_some_iff hnd k v).mp h)

theorem afind_foldl_aset {α β : Type} [DecidableEq α] :
    ∀ (e : List (α × β)) (m : List (α × β)) (k : α),
    (e.map Prod.fst).Nodup →
    afind k (e.foldl (fun m p => aset p.1 p.2 m) m) =
      if k ∈ e.map Prod.fst then afind k e else afind k m
  | [], m, k, _ => by simp
  | (k₀, v₀) :: t, m, k, hnd => by
    have hnd' : (t.map Prod.fst).Nodup := (List.nodup_cons.mp hnd).2
    have hk₀ : k₀ ∉ t.map Prod.fst := (List.nodup_cons.mp hnd).1
    show afind k (t.foldl (fun m p => aset p.1 p.2 m) (aset k₀ v₀ m)) = _
    rw [afind_foldl_aset t (aset k₀ v₀ m) k hnd']
    by_cases h1 : k ∈ t.map Prod.fst
    · rw [if_pos h1, if_pos (by simp [h1])]
      have hne : k ≠ k₀ := by
        intro he
        subst he
        exact hk₀ h1
      simp [afind, hne]
    · rw [if_neg h1]
      by_cases h2 : k = k₀
      · subst h2
        rw [afind_aset, if_pos (by simp)]
        simp [afind]
      · rw [afind_aset_ne v₀ h2, if_neg (by simp [h2, h1])]

theorem afind_decodeFeeds (e : Feeds) (hnd : (e.map Prod.fst).Nodup) (k : String) :
    afind k (decodeFeeds e) = afind k e := by
  unfold decodeFeeds
  rw [afind_foldl_aset e [] k hnd]
  by_cases h : k ∈ e.map Prod.fst
  · rw [if_pos h]
  · rw [if_neg h, (afind_eq_none_iff k e).mpr h]
    rfl

theorem afind_map_value {α β γ : Type} [DecidableEq α] (g : β → γ) (k : α) :
    ∀ l : List (α × β),
    afind k (l.map (fun p => (p.1, g p.2))) = (afind k l).map g
  | [] => rfl
  | (k₀, v₀) :: t => by
    by_cases h : k = k₀ <;> simp [afind, h, afind_map_value g k t]

theorem afind_decodeSeens (e : EncSeens) (hnd : (e.map Prod.fst).Nodup) (cid : Int) :
    afind cid (decodeSeens e) = (afind cid e).map decodeSeenArr := by
  unfold decodeSeens
  have hfold : e.foldl (fun m p => aset p.1 (decodeSeenArr p.2) m) [] =
      (e.map (fun p => (p.1, decodeSeenArr p.2))).foldl (fun m p => aset p.1 p.2 m) [] := by
    rw [List.foldl_map]
  rw [hfold]
  have hkeys : (e.map (fun p => (p.1, decodeSeenArr p.2))).map Prod.fst = e.map Prod.fst := by
    simp [List.map_map, Function.comp]
  rw [afind_foldl_aset _ [] cid (by rw [hkeys]; exact hnd)]
  by_cases h : cid ∈ (e.map (fun p => (p.1, decodeSeenArr p.2))).map Prod.fst
  · rw [if_pos h, afind_map_value]
  · rw [if_neg h]
    have h2 : afind cid e = none :=
      (afind_eq_none_iff cid e).mpr (by rw [← hkeys]; exact h)
    rw [h2]
    rfl

theorem mem_decodeSeenArr_aux :
    ∀ (arr : List ArticleKey) (acc : Seen) (k : ArticleKey),
    (k ∈ arr.foldl (fun s a => if a ∈ s then s else a :: s) acc ↔ k ∈ acc ∨ k ∈ arr)
  | [], acc, k => by simp
  | a :: t, acc, k => by
    show k ∈ List.foldl _ (if a ∈ acc then acc else a :: acc) t ↔ _
    rw [mem_decodeSeenArr_aux t _ k, List.mem_cons]
    by_cases h : a ∈ acc
    · rw [if_pos h]
      constructor
      · rintro (h0 | h0)
        · exact Or.inl h0
        · exact Or.inr (Or.inr h0)
      · rintro (h0 | h0 | h0)
        · exact Or.inl h0
        · exact Or.inl (by rw [h0]; exact h)
        · exact Or.inr h0
    · rw [if_neg h, List.mem_cons]
      tauto

theorem mem_decodeSeenArr (arr : List ArticleKey) (k : ArticleKey) :
    k ∈ decodeSeenArr arr ↔ k ∈ arr := by
  unfold decodeSeenArr
  rw [mem_decodeSeenArr_aux arr [] k]
  simp

theorem forall2_keys {α β : Type} {R : (α × β) → (α × β) → Prop}
    (hR : ∀ x y, R x y → x.1 = y.1) {l₁ l₂ : List (α × β)}
    (h : List.Forall₂ R l₁ l₂) : l₁.map Prod.fst = l₂.map Prod.fst := by
  induction h with
  | nil => rfl
  | cons hr _ ih => simp [hR _ _ hr, ih]

theorem forall2_afind {α β : Type} [DecidableEq α] {R : β → β → Prop}
    {l₁ l₂ : List (α × β)}
    (h : List.Forall₂ (fun x y => x.1 = y.1 ∧ R x.2 y.2) l₁ l₂) (k : α) :
    (afind k l₁ = none ∧ afind k l₂ = none) ∨
    (∃ v₁ v₂, afind k l₁ = some v₁ ∧ afind k l₂ = some v₂ ∧ R v₁ v₂) := by
  induction h with
  | nil => exact Or.inl ⟨rfl, rfl⟩
  | @cons x y l₁ l₂ hr hrest ih =>
    obtain ⟨kx, vx⟩ := x
    obtain ⟨ky, vy⟩ := y
    obtain ⟨hk, hv⟩ := hr
    by_cases hurl : k = kx
    · right
      refine ⟨vx, vy, ?_, ?_, hv⟩
      · simp [afind, hurl]
      · have hy : k = ky := by rw [hurl]; exact hk
        simp [afind, hy]
    · have hk' : kx = ky := hk
      have hurly : k ≠ ky := by rw [← hk']; exact hurl
      rcases ih with ⟨h1, h2⟩ | ⟨v₁, v₂, h1, h2, hRv⟩
      · left
        constructor
        · simp [afind, hurl, h1]
        · simp [afind, hurly, h2]
      · right
        exact ⟨v₁, v₂, by simp [afind, hurl, h1], by simp [afind, hurly, h2], hRv⟩

/-- Claim C8: for any server state with well-formed maps, any serialization
of it (mappings written out in arbitrary order, each seen-set written as an
array in arbitrary order) decodes back to an equivalent registry (same
url to title and url to subscriber-set) and an equivalent seen-set store
(same channel to set-of-keys). -/
theorem export_roundtrip (fs : Feeds) (ss : Seens) (ef : Feeds) (es : EncSeens)
    (hnf : (fs.map Prod.fst).Nodup) (hns : (ss.map Prod.fst).Nodup)
    (hser : SerOf fs ss ef es) :
    (∀ url, feedTitle (decodeFeeds ef) url = feedTitle fs url) ∧
    (∀ url cid, subscribed (decodeFeeds ef) url cid ↔ subscribed fs url cid) ∧
    (∀ cid k, seenMem (decodeSeens es) cid k ↔ seenMem ss cid k) := by
  obtain ⟨⟨g, hfor, hperm⟩, g2, hfor2, hperm2⟩ := hser
  have hkeysg : fs.map Prod.fst = g.map Prod.fst :=
    forall2_keys (fun x y hr => hr.1) hfor
  have hndg : (g.map Prod.fst).Nodup := by rw [← hkeysg]; exact hnf
  have hndef : (ef.map Prod.fst).Nodup := ((hperm.map Prod.fst).nodup_iff).mp hndg
  have hkeysg2 : ss.map Prod.fst = g2.map Prod.fst :=
    forall2_keys (fun x y hr => hr.1) hfor2
  have hndg2 : (g2.map Prod.fst).Nodup := by rw [← hkeysg2]; exact hns
  have hndes : (es.map Prod.fst).Nodup := ((hperm2.map Prod.fst).nodup_iff).mp hndg2
  have hef : ∀ url, afind url (decodeFeeds ef) = afind url g := by
    intro url
    rw [afind_decodeFeeds ef hndef url, afind_perm hndg hperm url]
  have hes : ∀ cid, afind cid (decodeSeens es) = (afind cid g2).map decodeSeenArr := by
    intro cid
    rw [afind_decodeSeens es hndes cid, afind_perm hndg2 hperm2 cid]
  refine ⟨?_, ?_, ?_⟩
  · intro url
    rcases forall2_afind (R := fun v w : Feed => v.title = w.title ∧ v.chats.Perm w.chats)
        hfor url with ⟨h1, h2⟩ | ⟨fd, fd', h1, h2, ht, -⟩
    · unfold feedTitle
      rw [hef url, h1, h2]
    · unfold feedTitle
      rw [hef url, h1, h2]
      show some fd'.title = some fd.title
      rw [ht]
  · intro url cid
    rcases forall2_afind (R := fun v w : Feed => v.title = w.title ∧ v.chats.Perm w.chats)
        hfor url with ⟨h1, h2⟩ | ⟨fd, fd', h1, h2, -, hc⟩
    · unfold subscribed
      rw [hef url, h1, h2]
    · unfold subscribed
      rw [hef url, h1, h2]
      constructor
      · rintro ⟨fd₀, hfd₀, hin⟩
        refine ⟨fd, rfl, ?_⟩
        have : fd' = fd₀ := Option.some.inj hfd₀
        subst this
        exact (hc.mem_iff).mpr hin
      · rintro ⟨fd₀, hfd₀, hin⟩
        refine ⟨fd', rfl, ?_⟩
        have : fd = fd₀ := Option.some.inj hfd₀
        subst this
        exact (hc.mem_iff).mp hin
  · intro cid k
    rcases forall2_afind (R := fun a b : List ArticleKey => a.Perm b)
        hfor2 cid with ⟨h1, h2⟩ | ⟨arr, arr', h1, h2, hp⟩
    · unfold seenMem
      rw [hes cid, h1, h2]
      simp
    · unfold seenMem
      rw [hes cid, h1, h2]
      show k ∈ (decodeSeenArr arr') ↔ k ∈ arr
      rw [mem_decodeSeenArr]
      exact (hp.mem_iff).symm

/-- Witness for C8: a two-feed registry and one seen-set, serialized with
every collection reordered, decode back to an equivalent state. -/
theorem export_roundtrip_witness :
    feedTitle (decodeFeeds [("v", Feed.mk [] "S"), ("u", Feed.mk [2, 1] "T")]) "u" =
      feedTitle [("u", Feed.mk [1, 2] "T"), ("v", Feed.mk [] "S")] "u" ∧
    (subscribed (decodeFeeds [("v", Feed.mk [] "S"), ("u", Feed.mk [2, 1] "T")]) "u" 1 ↔
      subscribed [("u", Feed.mk [1, 2] "T"), ("v", Feed.mk [] "S")] "u" 1) ∧
    (seenMem (decodeSeens [(1, ["b", "a"])]) 1 "a" ↔ seenMem [(1, ["a", "b"])] 1 "a") := by
  have h := export_roundtrip
    [("u", Feed.mk [1, 2] "T"), ("v", Feed.mk [] "S")] [(1, ["a", "b"])]
    [("v", Feed.mk [] "S"), ("u", Feed.mk [2, 1] "T")] [(1, ["b", "a"])]
    (by decide) (by decide)
    ⟨⟨[("u", Feed.mk [2, 1] "T"), ("v", Feed.mk [] "S")],
      List.Forall₂.cons ⟨rfl, rfl, by decide⟩
        (List.Forall₂.cons ⟨rfl, rfl, by decide⟩ List.Forall₂.nil),
      by decide⟩,
     ⟨[(1, ["b", "a"])],
      List.Forall₂.cons ⟨rfl, by decide⟩ List.Forall₂.nil,
      by decide⟩⟩
  exact ⟨h.1 "u", h.2.1 "u" 1, h.2.2 1 "a"⟩
